import Mathlib

/-!
Shallow embedding of `diskimage_builder/graph/digraph.py`.

Python `Digraph.Node` objects are mutable objects with identity; we model the
object heap explicitly: every node lives at a numeric id in `St.heap`, and all
references to nodes (the digraph's `_named_nodes` dictionary, the node stored
inside an `Edge`) are ids.  Mutating a node is updating its heap cell.
Python `dict`s (insertion ordered, unique keys) are association lists.
Exceptions (`raise RuntimeError` and failing `assert`s) are modelled with
`Except`, the error carrying the state at the moment of raising, so that
"state unchanged on failure" claims are real statements.
-/

namespace Digraph

/-- `Digraph.Edge`: weight plus reference (heap id) of the pointed-to node. -/
structure Edge where
  node : Nat
  weight : Int
deriving DecidableEq, Repr

/-- The data stored in a `Digraph.Node` object: its name and the incoming and
outgoing edge lists (kept weight-sorted by `bisect.insort`). -/
structure NodeData where
  name : String
  incoming : List Edge
  outgoing : List Edge
deriving DecidableEq, Repr

/-- The Python object heap restricted to `Node` objects, together with the one
digraph's `_named_nodes` dictionary.  `nextId` is the next fresh object id. -/
structure St where
  heap : List (Nat × NodeData)
  nextId : Nat
  named_nodes : List (String × Nat)
deriving DecidableEq, Repr

/-- The empty digraph (`Digraph.__init__`) over an empty heap. -/
def St.empty : St := ⟨[], 0, []⟩

/-- Association-list lookup by numeric key (first match). -/
def alookup {β : Type} : List (Nat × β) → Nat → Option β
  | [], _ => none
  | (k, v) :: rest, i => if k = i then some v else alookup rest i

/-- Association-list lookup by string key (first match); models Python `dict`
indexing on `_named_nodes`. -/
def slookup {β : Type} : List (String × β) → String → Option β
  | [], _ => none
  | (k, v) :: rest, i => if k = i then some v else slookup rest i

/-- Update the heap cell of object `i` (models mutating the Python object). -/
def heapUpd : List (Nat × NodeData) → Nat → (NodeData → NodeData) → List (Nat × NodeData)
  | [], _, _ => []
  | (k, v) :: rest, i, f => if k = i then (k, f v) :: rest else (k, v) :: heapUpd rest i f

/-- Dereference a node id in a state. -/
def heapGet (s : St) (i : Nat) : Option NodeData := alookup s.heap i

/-- Dereference with a dummy default (never hit on states built by the code,
where every stored id is a live object). -/
def nodeOf (s : St) (i : Nat) : NodeData := (heapGet s i).getD ⟨"", [], []⟩

/-- Mutate node object `i` in state `s`. -/
def updNode (s : St) (i : Nat) (f : NodeData → NodeData) : St :=
  { s with heap := heapUpd s.heap i f }

/-- `Digraph.Node.__init__`: allocate a fresh node object with the given name
and empty edge lists; returns the new state and the object's id. -/
def newNode (s : St) (name : String) : St × Nat :=
  (⟨s.heap ++ [(s.nextId, ⟨name, [], []⟩)], s.nextId + 1, s.named_nodes⟩, s.nextId)

/-- `bisect_right` inner binary search: Python's
`while lo < hi: mid = (lo+hi)//2; if x < a[mid]: hi = mid else lo = mid+1`.
The only comparison used is `Edge.__lt__`, which compares weights. -/
def bisectGo (a : List Edge) (x : Edge) : Nat → Nat → Nat → Nat
  | 0, lo, _ => lo
  | f + 1, lo, hi =>
    if lo < hi then
      if x.weight < ((a.getD ((lo + hi) / 2) ⟨0, 0⟩).weight) then
        bisectGo a x f lo ((lo + hi) / 2)
      else
        bisectGo a x f ((lo + hi) / 2 + 1) hi
    else
      lo

/-- `bisect.bisect_right a x` with default bounds.  The loop shrinks `hi - lo`
every iteration, so `a.length` rounds always reach `lo = hi`. -/
def bisectRight (a : List Edge) (x : Edge) : Nat := bisectGo a x a.length 0 a.length

/-- `bisect.insort a x`: insert `x` at index `bisect_right a x`. -/
def insort (a : List Edge) (x : Edge) : List Edge :=
  a.take (bisectRight a x) ++ x :: a.drop (bisectRight a x)

/-- `Digraph.Node.add_incoming`: `bisect.insort(self.__incoming, Edge(node, weight))`. -/
def NodeData.add_incoming (nd : NodeData) (node : Nat) (weight : Int) : NodeData :=
  { nd with incoming := insort nd.incoming ⟨node, weight⟩ }

/-- `Digraph.Node.add_outgoing`: `bisect.insort(self.__outgoing, Edge(node, weight))`. -/
def NodeData.add_outgoing (nd : NodeData) (node : Nat) (weight : Int) : NodeData :=
  { nd with outgoing := insort nd.outgoing ⟨node, weight⟩ }

/-- A Python return value that is either a genuine `bool` or a list of edges;
needed because `Digraph.Node.has_incoming` returns its list, not a `bool`. -/
inductive PyRetVal : Type
  | pybool : Bool → PyRetVal
  | pylist : List Edge → PyRetVal
deriving DecidableEq, Repr

/-- `Digraph.Node.has_incoming`: the source is `return self.__incoming` -- it
returns the incoming list object itself, not a boolean. -/
def NodeData.has_incoming (nd : NodeData) : PyRetVal := .pylist nd.incoming

/-- Python truthiness of such a return value (`if node.has_incoming():`):
a list is truthy iff non-empty. -/
def pyTruthy : PyRetVal → Bool
  | .pybool b => b
  | .pylist l => !l.isEmpty

/-- `Digraph.Node.get_iter_outgoing`, as the list of target ids, in edge-list
order. -/
def outgoingIds (s : St) (i : Nat) : List Nat := (nodeOf s i).outgoing.map (·.node)

/-- `Digraph.Node.get_outgoing_as_named_list`: names of the outgoing targets. -/
def outgoingNamedList (s : St) (i : Nat) : List String :=
  (nodeOf s i).outgoing.map (fun e => (nodeOf s e.node).name)

/-- `Digraph.find`: the id registered under `name`, or `none`. -/
def find (s : St) (name : String) : Option Nat := slookup s.named_nodes name

/-- `Digraph.add_node`: scan all registered nodes for a name collision
(`node.get_name() == anode.get_name()`), raise if found, otherwise bind
`anode` under its name.  Errors carry the (unchanged) state. -/
def add_node (s : St) (anode : Nat) : Except (String × St) St :=
  match heapGet s anode with
  | none => .error ("not a Node", s)
  | some nd =>
    if s.named_nodes.any (fun p => (nodeOf s p.2).name == nd.name) then
      .error ("Node with name [" ++ nd.name ++ "] already exists", s)
    else
      .ok { s with named_nodes := s.named_nodes ++ [(nd.name, anode)] }

/-- `Digraph.create_edge`: assert both endpoints are the very objects
registered under their names, then `anode.add_outgoing(bnode, weight)` and
`bnode.add_incoming(anode, weight)`.  All asserts precede the mutations. -/
def create_edge (s : St) (anode bnode : Nat) (weight : Int) : Except (String × St) St :=
  match heapGet s anode, heapGet s bnode with
  | some nda, some ndb =>
    if find s nda.name = some anode then
      if find s ndb.name = some bnode then
        let s1 := updNode s anode (fun nd => nd.add_outgoing bnode weight)
        let s2 := updNode s1 bnode (fun nd => nd.add_incoming anode weight)
        .ok s2
      else .error ("assert bnode registered", s)
    else .error ("assert anode registered", s)
  | _, _ => .error ("assert Node instances", s)

/-- First phase of `Digraph.create_from_dict`: for every key of the mapping,
construct a node (`node_gen_func(node_name)` with the default generator) and
`add_node` it. -/
def phase1 (s : St) : List (String × List String) → Except (String × St) St
  | [] => .ok s
  | (k, _) :: rest =>
    let sn := newNode s k
    match add_node sn.1 sn.2 with
    | .error e => .error e
    | .ok s2 => phase1 s2 rest

/-- Inner loop of the second phase: for each target name, `find` it, raise
`RuntimeError` when missing, else `create_edge(node_from, node_to)` with the
default weight 0. -/
def addEdges (s : St) (fromId : Nat) : List String → Except (String × St) St
  | [] => .ok s
  | t :: ts =>
    match find s t with
    | none => .error ("Node '" ++ t ++ "' is referenced but not specified", s)
    | some toId =>
      match create_edge s fromId toId 0 with
      | .error e => .error e
      | .ok s2 => addEdges s2 fromId ts

/-- Second phase of `Digraph.create_from_dict`: run through all mapping items
and create the edges. -/
def phase2 (s : St) : List (String × List String) → Except (String × St) St
  | [] => .ok s
  | (k, outs) :: rest =>
    match find s k with
    | none => .error ("AttributeError: NoneType", s)
    | some fromId =>
      match addEdges s fromId outs with
      | .error e => .error e
      | .ok s2 => phase2 s2 rest

/-- `Digraph.create_from_dict`: phase 1 (all nodes) then phase 2 (all edges). -/
def create_from_dict (s : St) (m : List (String × List String)) : Except (String × St) St :=
  match phase1 s m with
  | .error e => .error e
  | .ok s1 => phase2 s1 m

/-- `digraph_create_from_dict`: build from a fresh empty digraph. -/
def digraph_create_from_dict (m : List (String × List String)) : Except (String × St) St :=
  create_from_dict St.empty m

/-- `Digraph.as_dict`: `rval[node.get_name()] = node.get_outgoing_as_named_list()`
over the registered nodes in insertion order. -/
def as_dict (s : St) : List (String × List String) :=
  s.named_nodes.map (fun p => ((nodeOf s p.2).name, outgoingNamedList s p.2))

/-- Ids of the registered nodes in registration order (`_named_nodes.values()`). -/
def namedValues (s : St) : List Nat := s.named_nodes.map (·.2)

/-- The nodes the main loop of `topological_sort` starts a traversal from:
those for which `if node.has_incoming(): continue` does not fire. -/
def rootIds (s : St) : List Nat :=
  (namedValues s).filter (fun i => !pyTruthy (nodeOf s i).has_incoming)

/-- The recursive `visit` of `topological_sort`, presented with an explicit
worklist: `visitL s fuel (n :: rest) visited tsort` processes `n` exactly like
`visit(n)` (skip if visited, else mark visited, recurse into the outgoing
targets in order, then `tsort.insert(0, n)`) and continues with `rest`.
`fuel` counts recursive calls; `none` means the budget was hit, which never
happens at the budget `topological_sort` passes (theorem `visitL_total`). -/
def visitL (s : St) : Nat → List Nat → List Nat → List Nat → Option (List Nat × List Nat)
  | _, [], visited, tsort => some (visited, tsort)
  | 0, _ :: _, _, _ => none
  | f + 1, n :: rest, visited, tsort =>
    if n ∈ visited then
      visitL s f rest visited tsort
    else
      match visitL s f (outgoingIds s n) (visited ++ [n]) tsort with
      | none => none
      | some (v1, t1) => visitL s f rest v1 (n :: t1)

/-- Accounting device for the call budget: the work still ahead when the node
objects in `v` have been visited -- one call per not-yet-visited node object
plus one per such node's outgoing edge. -/
def unvisitedPot (s : St) (v : List Nat) : Nat :=
  (((s.heap.map Prod.fst).dedup.filter (fun i => decide (i ∉ v))).map
    (fun i => 1 + (outgoingIds s i).length)).sum

/-- An upper bound on the number of recursive `visit` calls any run can make:
one per worklist entry at top level, plus, for every node object, one call for
the node itself and one per outgoing edge. -/
def fuelOf (s : St) : Nat :=
  s.named_nodes.length + unvisitedPot s [] + 1

/-- `Digraph.topological_sort`: visit every registered root, sharing the
`visited` and `tsort` lists, and return `tsort` (as node ids).  The budget
`fuelOf s` always suffices (theorem `visitL_total`). -/
def topological_sort (s : St) : Option (List Nat) :=
  (visitL s (fuelOf s) (rootIds s) [] []).map (·.2)

/-- `node_list_to_node_name_list`: map nodes to their names. -/
def node_list_to_node_name_list (s : St) (l : List Nat) : List String :=
  l.map (fun i => (nodeOf s i).name)

/-- The edge relation of the stored graph: there is an edge from `a` to `b`
iff `b` occurs among `a`'s outgoing targets. -/
def EdgeRel (s : St) (a b : Nat) : Prop := b ∈ outgoingIds s a

/-- Target ids of a node's incoming edges, in edge-list order. -/
def incomingIds (s : St) (i : Nat) : List Nat := (nodeOf s i).incoming.map (·.node)

/-- Whether a call raised. -/
def isErr : Except (String × St) St → Bool
  | .ok _ => false
  | .error _ => true

/-- Extract the carried state of a result, whether ok or raised. -/
def okSt : Except (String × St) St → St
  | .ok s => s
  | .error (_, s) => s

/-- States reachable from the empty digraph by any sequence of node
construction, `add_node` and `create_edge` calls (including failing ones,
whose carried state is the state at raise time). -/
inductive Reachable : St → Prop
  | empty : Reachable St.empty
  | newN {s : St} (name : String) : Reachable s → Reachable (newNode s name).1
  | addN {s : St} (i : Nat) : Reachable s → Reachable (okSt (add_node s i))
  | edge {s : St} (a b : Nat) (w : Int) : Reachable s → Reachable (okSt (create_edge s a b w))

/-- An edge list is sorted by ascending weight. -/
def WeightSorted (l : List Edge) : Prop :=
  List.Pairwise (fun e f => e.weight ≤ f.weight) l

/-- The graph of the spec's worked example `{A: [B], B: [C], C: []}`. -/
def gABC : St := okSt (digraph_create_from_dict [("A", ["B"]), ("B", ["C"]), ("C", [])])

/-- Shape of the node objects phase 1 allocates for the keys `ks`, starting at
object id `n0`: fresh nodes with empty edge lists. -/
def allocNodes (n0 : Nat) : List String → List (Nat × NodeData)
  | [] => []
  | k :: ks => (n0, ⟨k, [], []⟩) :: allocNodes (n0 + 1) ks

/-- Shape of the name bindings phase 1 creates for the keys `ks`: the j-th key
is bound to object id `n0 + j`. -/
def nameIds (n0 : Nat) : List String → List (String × Nat)
  | [] => []
  | k :: ks => (k, n0) :: nameIds (n0 + 1) ks

/-- The object id a graph built from a mapping with keys `ks` binds to the
name `t` (the index of `t`'s first occurrence in `ks`). -/
def idOf (ks : List String) (t : String) : Nat := (slookup (nameIds 0 ks) t).getD 0

/-- Characterisation of the states phase 2 walks through when building from a
mapping with keys `ks`: the bindings are exactly phase 1's, and node object
`i` carries the i-th key as name and `out i` as outgoing list. -/
def HeapRep (S : St) (ks : List String) (out : Nat → List Edge) : Prop :=
  S.named_nodes = nameIds 0 ks
  ∧ ∀ i, i < ks.length → ∃ inc, alookup S.heap i = some ⟨ks.getD i "", inc, out i⟩

/-- Every node object in the state has weight-sorted edge lists. -/
def SortedSt (s : St) : Prop :=
  ∀ i nd, heapGet s i = some nd → WeightSorted nd.incoming ∧ WeightSorted nd.outgoing

lemma alookup_append_left {β : Type} {l₁ : List (Nat × β)} {k : Nat} {v : β}
    (l₂ : List (Nat × β)) (h : alookup l₁ k = some v) :
    alookup (l₁ ++ l₂) k = some v := by
  induction l₁ with
  | nil => exact absurd h (by simp [alookup])
  | cons p rest ih =>
    rw [List.cons_append, alookup]
    rw [alookup] at h
    split at h
    · next hk => rw [if_pos hk]; exact h
    · next hk => rw [if_neg hk]; exact ih h

lemma alookup_append_right {β : Type} {l₁ : List (Nat × β)} {k : Nat}
    (l₂ : List (Nat × β)) (h : alookup l₁ k = none) :
    alookup (l₁ ++ l₂) k = alookup l₂ k := by
  induction l₁ with
  | nil => rfl
  | cons p rest ih =>
    rw [List.cons_append, alookup]
    rw [alookup] at h
    split at h
    · simp at h
    · next hk => rw [if_neg hk]; exact ih h

lemma heapUpd_lookup_self (l : List (Nat × NodeData)) (i : Nat) (f : NodeData → NodeData) :
    alookup (heapUpd l i f) i = (alookup l i).map f := by
  induction l with
  | nil => rfl
  | cons p rest ih =>
    cases p with
    | mk k v =>
      by_cases hk : k = i
      · simp [heapUpd, alookup, hk]
      · simp only [heapUpd, if_neg hk, alookup, ih]

lemma heapUpd_lookup_ne (l : List (Nat × NodeData)) (i j : Nat) (f : NodeData → NodeData)
    (hj : j ≠ i) :
    alookup (heapUpd l i f) j = alookup l j := by
  induction l with
  | nil => rfl
  | cons p rest ih =>
    cases p with
    | mk k v =>
      by_cases hk : k = i
      · subst hk
        simp [heapUpd, alookup, Ne.symm hj]
      · simp only [heapUpd, if_neg hk, alookup, ih]

lemma heapUpd_keys (l : List (Nat × NodeData)) (i : Nat) (f : NodeData → NodeData) :
    (heapUpd l i f).map Prod.fst = l.map Prod.fst := by
  induction l with
  | nil => rfl
  | cons p rest ih =>
    cases p with
    | mk k v =>
      by_cases hk : k = i
      · simp [heapUpd, hk]
      · simp [heapUpd, hk, ih]

lemma updNode_heapGet (s : St) (i j : Nat) (f : NodeData → NodeData) :
    heapGet (updNode s i f) j = if j = i then (heapGet s i).map f else heapGet s j := by
  by_cases h : j = i
  · subst h
    rw [if_pos rfl]
    exact heapUpd_lookup_self s.heap j f
  · rw [if_neg h]
    exact heapUpd_lookup_ne s.heap i j f h

lemma weightSorted_getD_mono {a : List Edge} (hs : WeightSorted a) {i j : Nat}
    (hij : i ≤ j) (hj : j < a.length) :
    (a.getD i ⟨0, 0⟩).weight ≤ (a.getD j ⟨0, 0⟩).weight := by
  rcases Nat.eq_or_lt_of_le hij with rfl | hlt
  · exact le_refl _
  · have hi : i < a.length := lt_trans hlt hj
    rw [List.getD_eq_getElem _ _ hi, List.getD_eq_getElem _ _ hj]
    have := List.pairwise_iff_get.1 hs ⟨i, hi⟩ ⟨j, hj⟩ hlt
    simpa using this

/-- Binary-search invariant of `bisect_right`: on a weight-sorted list, and
with enough fuel, the returned index splits the list into a left part whose
weights are at most `x.weight` and a right part with strictly larger
weights. -/
lemma bisectGo_spec (a : List Edge) (x : Edge) (hs : WeightSorted a) :
    ∀ f lo hi, hi - lo ≤ f → lo ≤ hi → hi ≤ a.length →
    (∀ i, i < lo → ¬ x.weight < (a.getD i ⟨0, 0⟩).weight) →
    (∀ i, hi ≤ i → i < a.length → x.weight < (a.getD i ⟨0, 0⟩).weight) →
    (lo ≤ bisectGo a x f lo hi ∧ bisectGo a x f lo hi ≤ hi)
    ∧ (∀ i, i < bisectGo a x f lo hi → ¬ x.weight < (a.getD i ⟨0, 0⟩).weight)
    ∧ (∀ i, bisectGo a x f lo hi ≤ i → i < a.length →
        x.weight < (a.getD i ⟨0, 0⟩).weight) := by
  intro f
  induction f with
  | zero =>
    intro lo hi hf hlo hhi hlow hhigh
    have : hi = lo := by omega
    subst this
    exact ⟨⟨le_refl _, le_refl _⟩, hlow, fun i hi1 hi2 => hhigh i hi1 hi2⟩
  | succ f ih =>
    intro lo hi hf hlo hhi hlow hhigh
    rw [bisectGo]
    by_cases hlt : lo < hi
    · rw [if_pos hlt]
      by_cases hcmp : x.weight < ((a.getD ((lo + hi) / 2) ⟨0, 0⟩).weight)
      · rw [if_pos hcmp]
        have hmidhigh : ∀ i, (lo + hi) / 2 ≤ i → i < a.length →
            x.weight < (a.getD i ⟨0, 0⟩).weight := by
          intro i hi1 hi2
          exact lt_of_lt_of_le hcmp (weightSorted_getD_mono hs hi1 hi2)
        obtain ⟨⟨hb1, hb2⟩, hl, hh⟩ :=
          ih lo ((lo + hi) / 2) (by omega) (by omega) (by omega) hlow hmidhigh
        exact ⟨⟨hb1, by omega⟩, hl, hh⟩
      · rw [if_neg hcmp]
        have hmidlow : ∀ i, i < (lo + hi) / 2 + 1 →
            ¬ x.weight < (a.getD i ⟨0, 0⟩).weight := by
          intro i hi1
          have hmid : (lo + hi) / 2 < a.length := by omega
          intro hcon
          apply hcmp
          calc x.weight < (a.getD i ⟨0, 0⟩).weight := hcon
            _ ≤ (a.getD ((lo + hi) / 2) ⟨0, 0⟩).weight :=
              weightSorted_getD_mono hs (by omega) hmid
        obtain ⟨⟨hb1, hb2⟩, hl, hh⟩ :=
          ih ((lo + hi) / 2 + 1) hi (by omega) (by omega) hhi hmidlow hhigh
        exact ⟨⟨by omega, hb2⟩, hl, hh⟩
    · rw [if_neg hlt]
      have : hi = lo := by omega
      subst this
      exact ⟨⟨le_refl _, le_refl _⟩, hlow, fun i hi1 hi2 => hhigh i hi1 hi2⟩

/-- On a weight-sorted list, `insort` inserts the new edge after every edge of
weight at most its own (so after all equal-weight edges: insertion-stable for
ties) and before every strictly heavier edge, leaving the relative order of
the existing edges untouched. -/
lemma insort_spec (a : List Edge) (x : Edge) (hs : WeightSorted a) :
    ∃ k, k ≤ a.length ∧ insort a x = a.take k ++ x :: a.drop k
    ∧ (∀ i, i < k → (a.getD i ⟨0, 0⟩).weight ≤ x.weight)
    ∧ (∀ i, k ≤ i → i < a.length → x.weight < (a.getD i ⟨0, 0⟩).weight) := by
  obtain ⟨⟨h0, hlen⟩, hlow, hhigh⟩ :=
    bisectGo_spec a x hs a.length 0 a.length (by omega) (by omega) (le_refl _)
      (by omega) (by omega)
  exact ⟨bisectRight a x, hlen, rfl,
    fun i hik => not_lt.mp (hlow i hik), hhigh⟩

/-- `insort` preserves weight-sortedness. -/
lemma insort_sorted (a : List Edge) (x : Edge) (hs : WeightSorted a) :
    WeightSorted (insort a x) := by
  obtain ⟨k, hk, heq, hlow, hhigh⟩ := insort_spec a x hs
  rw [heq]
  have hmemdrop : ∀ e ∈ a.drop k, x.weight < e.weight := by
    intro e he
    obtain ⟨⟨j, hj⟩, rfl⟩ := List.mem_iff_get.1 he
    have hjlen : k + j < a.length := by
      have := hj
      simp only [List.length_drop] at this
      omega
    have : (a.drop k).get ⟨j, hj⟩ = a.getD (k + j) ⟨0, 0⟩ := by
      rw [List.getD_eq_getElem _ _ hjlen]
      simp [List.getElem_drop]
    rw [this]
    exact hhigh (k + j) (by omega) hjlen
  have hmemtake : ∀ e ∈ a.take k, e.weight ≤ x.weight := by
    intro e he
    obtain ⟨⟨j, hj⟩, rfl⟩ := List.mem_iff_get.1 he
    have hjk : j < k := by
      have := hj
      simp only [List.length_take] at this
      omega
    have hjlen : j < a.length := by
      have := hj
      simp only [List.length_take] at this
      omega
    have : (a.take k).get ⟨j, hj⟩ = a.getD j ⟨0, 0⟩ := by
      rw [List.getD_eq_getElem _ _ hjlen]
      simp [List.getElem_take]
    rw [this]
    exact hlow j hjk
  rw [WeightSorted, List.pairwise_append]
  refine ⟨hs.sublist (List.take_sublist k a), ?_, ?_⟩
  · rw [List.pairwise_cons]
    exact ⟨fun e he => le_of_lt (hmemdrop e he),
      hs.sublist (List.drop_sublist k a)⟩
  · intro u hu v hv
    rcases List.mem_cons.1 hv with rfl | hv'
    · exact hmemtake u hu
    · exact le_trans (hmemtake u hu) (le_of_lt (hmemdrop v hv'))

lemma sortedSt_empty : SortedSt St.empty := by
  intro i nd h
  exact absurd h (by simp [heapGet, alookup, St.empty])

lemma sortedSt_newNode {s : St} (name : String) (h : SortedSt s) :
    SortedSt (newNode s name).1 := by
  intro i nd hi
  rw [newNode] at hi
  simp only [heapGet] at hi
  by_cases hold : alookup s.heap i = none
  · rw [alookup_append_right _ hold] at hi
    rw [alookup] at hi
    split at hi
    · injection hi with hi'
      subst hi'
      exact ⟨List.Pairwise.nil, List.Pairwise.nil⟩
    · exact absurd hi (by simp [alookup])
  · obtain ⟨nd0, hnd0⟩ := Option.ne_none_iff_exists'.1 hold
    rw [alookup_append_left _ hnd0] at hi
    injection hi with hi'
    subst hi'
    exact h i nd0 hnd0

lemma sortedSt_add_node {s : St} (i : Nat) (h : SortedSt s) :
    SortedSt (okSt (add_node s i)) := by
  rw [add_node]
  cases hg : heapGet s i with
  | none => exact h
  | some nd =>
    dsimp only
    by_cases hdup : s.named_nodes.any (fun p => (nodeOf s p.2).name == nd.name)
    · rw [if_pos hdup]
      exact h
    · rw [if_neg hdup]
      intro j nd' hj
      exact h j nd' hj

lemma sortedSt_create_edge {s : St} (a b : Nat) (w : Int) (h : SortedSt s) :
    SortedSt (okSt (create_edge s a b w)) := by
  rw [create_edge]
  cases hga : heapGet s a with
  | none => exact h
  | some nda =>
    cases hgb : heapGet s b with
    | none => exact h
    | some ndb =>
      dsimp only
      by_cases h1 : find s nda.name = some a
      · rw [if_pos h1]
        by_cases h2 : find s ndb.name = some b
        · rw [if_pos h2]
          intro j nd' hj
          simp only [okSt] at hj
          rw [updNode_heapGet] at hj
          by_cases hjb : j = b
          · subst hjb
            rw [if_pos rfl, updNode_heapGet] at hj
            by_cases hja : j = a
            · subst hja
              rw [if_pos rfl, hga] at hj
              simp only [Option.map_some', Option.some_inj] at hj
              subst hj
              have hnda := h j nda hga
              simp only [NodeData.add_outgoing, NodeData.add_incoming]
              exact ⟨insort_sorted _ _ hnda.1, insort_sorted _ _ hnda.2⟩
            · rw [if_neg hja, hgb] at hj
              simp only [Option.map_some', Option.some_inj] at hj
              subst hj
              have hndb := h j ndb hgb
              simp only [NodeData.add_incoming]
              exact ⟨insort_sorted _ _ hndb.1, hndb.2⟩
          · rw [if_neg hjb, updNode_heapGet] at hj
            by_cases hja : j = a
            · subst hja
              rw [if_pos rfl, hga] at hj
              simp only [Option.map_some', Option.some_inj] at hj
              subst hj
              have hnda := h j nda hga
              simp only [NodeData.add_outgoing]
              exact ⟨hnda.1, insort_sorted _ _ hnda.2⟩
            · rw [if_neg hja] at hj
              exact h j nd' hj
        · rw [if_neg h2]
          exact h
      · rw [if_neg h1]
        exact h

/-- Claim C7: after any sequence of node construction, `add_node` and
`create_edge` calls, every node object's incoming and outgoing lists are
sorted by ascending weight; moreover `insort` (on such a sorted list) places
the new edge after every existing edge of weight at most its own -- in
particular after all equal-weight edges, i.e. insertion-stable for ties --
and before all strictly heavier ones, never reordering the existing edges. -/
theorem edge_lists_weight_sorted (s : St) (h : Reachable s) :
    SortedSt s
    ∧ (∀ (a : List Edge) (x : Edge), WeightSorted a →
        ∃ k, k ≤ a.length ∧ insort a x = a.take k ++ x :: a.drop k
        ∧ (∀ i, i < k → (a.getD i ⟨0, 0⟩).weight ≤ x.weight)
        ∧ (∀ i, k ≤ i → i < a.length → x.weight < (a.getD i ⟨0, 0⟩).weight)) := by
  constructor
  · induction h with
    | empty => exact sortedSt_empty
    | newN name _ ih => exact sortedSt_newNode name ih
    | addN i _ ih => exact sortedSt_add_node i ih
    | edge a b w _ ih => exact sortedSt_create_edge a b w ih
  · exact fun a x hs => insort_spec a x hs

/-- Witness for C7: a graph built by registering "A" and "B" and adding an
edge of weight 5 satisfies the sortedness invariant. -/
theorem edge_lists_weight_sorted_witness :
    SortedSt (okSt (create_edge (okSt (add_node (newNode (okSt (add_node
        (newNode St.empty "A").1 0)) "B").1 1)) 0 1 5))
    ∧ (∀ (a : List Edge) (x : Edge), WeightSorted a →
        ∃ k, k ≤ a.length ∧ insort a x = a.take k ++ x :: a.drop k
        ∧ (∀ i, i < k → (a.getD i ⟨0, 0⟩).weight ≤ x.weight)
        ∧ (∀ i, k ≤ i → i < a.length → x.weight < (a.getD i ⟨0, 0⟩).weight)) :=
  edge_lists_weight_sorted _
    (Reachable.edge 0 1 5 (Reachable.addN 1 (Reachable.newN "B"
      (Reachable.addN 0 (Reachable.newN "A" Reachable.empty)))))

lemma visitL_nil (s : St) (fuel : Nat) (v t : List Nat) :
    visitL s fuel [] v t = some (v, t) := by
  cases fuel <;> rfl

lemma visitL_cons (s : St) (f : Nat) (n : Nat) (rest v t : List Nat) :
    visitL s (f + 1) (n :: rest) v t =
      if n ∈ v then visitL s f rest v t
      else
        match visitL s f (outgoingIds s n) (v ++ [n]) t with
        | none => none
        | some (v1, t1) => visitL s f rest v1 (n :: t1) := rfl

lemma visitL_zero_cons (s : St) (n : Nat) (rest v t : List Nat) :
    visitL s 0 (n :: rest) v t = none := rfl

lemma visitL_post_of_nil (s : St) (fuel : Nat) (v t v' t' : List Nat)
    (h : visitL s fuel [] v t = some (v', t')) : v' = v ∧ t' = t := by
  rw [visitL_nil] at h
  simp only [Option.some_inj, Prod.mk.injEq] at h
  exact ⟨h.1.symm, h.2.symm⟩

/-- Basic invariants of one (completed) run of the `visit` worklist: the
visited list only grows, every worklist entry ends up visited, the sorted
list grows at the front, the new sorted entries are exactly the newly visited
nodes (every call that marks a node also finishes it), and every newly
visited node has all its successors visited. -/
lemma visitL_basic (s : St) :
    ∀ fuel wl v t v' t', visitL s fuel wl v t = some (v', t') →
    (∀ x, x ∈ v → x ∈ v')
    ∧ (∀ c, c ∈ wl → c ∈ v')
    ∧ List.Sublist t t'
    ∧ (∀ x, x ∈ t' ↔ (x ∈ t ∨ (x ∈ v' ∧ x ∉ v)))
    ∧ (∀ x, x ∈ v' → x ∈ v ∨ ∀ y, y ∈ outgoingIds s x → y ∈ v') := by
  intro fuel
  induction fuel with
  | zero =>
    intro wl v t v' t' h
    cases wl with
    | nil =>
      obtain ⟨rfl, rfl⟩ := visitL_post_of_nil s 0 v t v' t' h
      refine ⟨fun x hx => hx, fun c hcm => absurd hcm (List.not_mem_nil c),
        List.Sublist.refl _, ?_, fun x hx => Or.inl hx⟩
      intro x
      constructor
      · exact fun hx => Or.inl hx
      · rintro (hx | ⟨hxv, hxnv⟩)
        · exact hx
        · exact absurd hxv hxnv
    | cons n rest =>
      rw [visitL_zero_cons] at h
      cases h
  | succ f ih =>
    intro wl v t v' t' h
    cases wl with
    | nil =>
      obtain ⟨rfl, rfl⟩ := visitL_post_of_nil s (f + 1) v t v' t' h
      refine ⟨fun x hx => hx, fun c hcm => absurd hcm (List.not_mem_nil c),
        List.Sublist.refl _, ?_, fun x hx => Or.inl hx⟩
      intro x
      constructor
      · exact fun hx => Or.inl hx
      · rintro (hx | ⟨hxv, hxnv⟩)
        · exact hx
        · exact absurd hxv hxnv
    | cons n rest =>
      rw [visitL_cons] at h
      by_cases hn : n ∈ v
      · rw [if_pos hn] at h
        obtain ⟨ha, hb, hc, hd, he⟩ := ih rest v t v' t' h
        exact ⟨ha,
          fun c hcm => (List.mem_cons.1 hcm).elim (fun hceq => hceq ▸ ha n hn) (hb c),
          hc, hd, he⟩
      · rw [if_neg hn] at h
        cases hcall : visitL s f (outgoingIds s n) (v ++ [n]) t with
        | none => rw [hcall] at h; cases h
        | some p =>
          obtain ⟨v1, t1⟩ := p
          rw [hcall] at h
          obtain ⟨ha1, hb1, hc1, hd1, he1⟩ := ih _ _ _ _ _ hcall
          obtain ⟨ha2, hb2, hc2, hd2, he2⟩ := ih _ _ _ _ _ h
          have hvv1 : ∀ x, x ∈ v → x ∈ v1 :=
            fun x hx => ha1 x (List.mem_append_left _ hx)
          have hnv1 : n ∈ v1 :=
            ha1 n (List.mem_append_right _ (List.mem_singleton.2 rfl))
          refine ⟨fun x hx => ha2 x (hvv1 x hx), ?_, ?_, ?_, ?_⟩
          · intro c hcm
            rcases List.mem_cons.1 hcm with rfl | hcr
            · exact ha2 _ hnv1
            · exact hb2 c hcr
          · exact (hc1.trans (List.sublist_cons_self n t1)).trans hc2
          · intro x
            constructor
            · intro hxt'
              rcases (hd2 x).1 hxt' with hx1 | ⟨hxv', hxnv1⟩
              · rcases List.mem_cons.1 hx1 with rfl | hxt1
                · exact Or.inr ⟨ha2 _ hnv1, hn⟩
                · rcases (hd1 x).1 hxt1 with hxt | ⟨hxv1, hxnvn⟩
                  · exact Or.inl hxt
                  · exact Or.inr ⟨ha2 _ hxv1,
                      fun hxv => hxnvn (List.mem_append_left _ hxv)⟩
              · exact Or.inr ⟨hxv', fun hxv => hxnv1 (hvv1 x hxv)⟩
            · rintro (hxt | ⟨hxv', hxnv⟩)
              · exact (hd2 x).2 (Or.inl (List.mem_cons_of_mem n ((hd1 x).2 (Or.inl hxt))))
              · by_cases hxv1 : x ∈ v1
                · by_cases hxn : x = n
                  · subst hxn
                    exact (hd2 x).2 (Or.inl (List.mem_cons_self x t1))
                  · have hxt1 : x ∈ t1 := (hd1 x).2 (Or.inr ⟨hxv1, fun hm =>
                      (List.mem_append.1 hm).elim hxnv
                        (fun h1 => hxn (List.mem_singleton.1 h1))⟩)
                    exact (hd2 x).2 (Or.inl (List.mem_cons_of_mem n hxt1))
                · exact (hd2 x).2 (Or.inr ⟨hxv', hxv1⟩)
          · intro x hxv'
            rcases he2 x hxv' with hxv1 | hsucc
            · rcases he1 x hxv1 with hxvn | hsucc1
              · rcases List.mem_append.1 hxvn with hxv | hxn
                · exact Or.inl hxv
                · have hxeq : x = n := List.mem_singleton.1 hxn
                  subst hxeq
                  exact Or.inr (fun y hy => ha2 y (hb1 y hy))
              · exact Or.inr (fun y hy => ha2 y (hsucc1 y hy))
            · exact Or.inr hsucc

/-- The shared `visited` list makes the sorted output duplicate-free: a node
is pushed onto `tsort` only in the call that first marked it visited. -/
lemma visitL_nodup (s : St) :
    ∀ fuel wl v t v' t', visitL s fuel wl v t = some (v', t') →
    t.Nodup → (∀ x, x ∈ t → x ∈ v) →
    t'.Nodup ∧ (∀ x, x ∈ t' → x ∈ v') := by
  intro fuel
  induction fuel with
  | zero =>
    intro wl v t v' t' h hnd htv
    cases wl with
    | nil =>
      obtain ⟨rfl, rfl⟩ := visitL_post_of_nil s 0 v t v' t' h
      exact ⟨hnd, htv⟩
    | cons n rest =>
      rw [visitL_zero_cons] at h
      cases h
  | succ f ih =>
    intro wl v t v' t' h hnd htv
    cases wl with
    | nil =>
      obtain ⟨rfl, rfl⟩ := visitL_post_of_nil s (f + 1) v t v' t' h
      exact ⟨hnd, htv⟩
    | cons n rest =>
      rw [visitL_cons] at h
      by_cases hn : n ∈ v
      · rw [if_pos hn] at h
        exact ih rest v t v' t' h hnd htv
      · rw [if_neg hn] at h
        cases hcall : visitL s f (outgoingIds s n) (v ++ [n]) t with
        | none => rw [hcall] at h; cases h
        | some p =>
          obtain ⟨v1, t1⟩ := p
          rw [hcall] at h
          obtain ⟨ha1, hb1, hc1, hd1, he1⟩ := visitL_basic s f _ _ _ _ _ hcall
          obtain ⟨hnd1, htv1⟩ := ih _ _ _ _ _ hcall hnd
            (fun x hx => List.mem_append_left _ (htv x hx))
          have hnt1 : n ∉ t1 := by
            intro hmem
            rcases (hd1 n).1 hmem with hnt | ⟨_, hnvn⟩
            · exact hn (htv n hnt)
            · exact hnvn (List.mem_append_right _ (List.mem_singleton.2 rfl))
          apply ih _ _ _ _ _ h
          · exact List.Nodup.cons hnt1 hnd1
          · intro x hx
            rcases List.mem_cons.1 hx with rfl | hxt1
            · exact ha1 x (List.mem_append_right _ (List.mem_singleton.2 rfl))
            · exact htv1 x hxt1

/-- Claim C9: a topological sort result never lists a node twice, even with
several roots or several paths to the same node. -/
theorem topological_sort_nodup (s : St) (l : List Nat)
    (h : topological_sort s = some l) : l.Nodup := by
  rw [topological_sort] at h
  cases hv : visitL s (fuelOf s) (rootIds s) [] [] with
  | none => rw [hv] at h; cases h
  | some p =>
    obtain ⟨v', t'⟩ := p
    rw [hv] at h
    simp only [Option.map_some', Option.some_inj] at h
    subst h
    exact (visitL_nodup s (fuelOf s) (rootIds s) [] [] v' t' hv
      List.nodup_nil (fun x hx => absurd hx (List.not_mem_nil x))).1

/-- Witness for C9: the diamond `{A: [B, C], B: [D], C: [D], D: []}`, where
`D` is reachable twice, still lists every node once. -/
theorem topological_sort_nodup_witness :
    topological_sort (okSt (digraph_create_from_dict
        [("A", ["B", "C"]), ("B", ["D"]), ("C", ["D"]), ("D", [])]))
      = some [0, 2, 1, 3]
    ∧ List.Nodup [0, 2, 1, 3] :=
  ⟨rfl, topological_sort_nodup
    (okSt (digraph_create_from_dict
      [("A", ["B", "C"]), ("B", ["D"]), ("C", ["D"]), ("D", [])]))
    [0, 2, 1, 3] rfl⟩

lemma alookup_eq_none {β : Type} : ∀ (l : List (Nat × β)) (k : Nat),
    k ∉ l.map Prod.fst → alookup l k = none := by
  intro l k h
  induction l with
  | nil => rfl
  | cons p rest ih =>
    cases p with
    | mk k' v =>
      simp only [List.map_cons, List.mem_cons] at h
      push_neg at h
      rw [alookup, if_neg (fun he => h.1 he.symm)]
      exact ih h.2

lemma outgoingIds_ne_nil_mem (s : St) (a : Nat) (h : outgoingIds s a ≠ []) :
    a ∈ s.heap.map Prod.fst := by
  by_contra hna
  apply h
  rw [outgoingIds, nodeOf, heapGet, alookup_eq_none s.heap a hna]
  rfl

lemma pot_mono (s : St) (v v2 : List Nat) (hsub : ∀ x, x ∈ v → x ∈ v2) :
    unvisitedPot s v2 ≤ unvisitedPot s v := by
  rw [unvisitedPot, unvisitedPot]
  have hf : List.Sublist
      ((s.heap.map Prod.fst).dedup.filter (fun i => decide (i ∉ v2)))
      ((s.heap.map Prod.fst).dedup.filter (fun i => decide (i ∉ v))) := by
    apply List.monotone_filter_right
    intro a ha
    simp only [decide_eq_true_eq] at ha ⊢
    exact fun hav => ha (hsub a hav)
  exact (hf.map _).sum_le_sum (by simp)

lemma pot_step (s : St) (v : List Nat) (n : Nat)
    (hheap : n ∈ s.heap.map Prod.fst) (hn : n ∉ v) :
    unvisitedPot s v
      = (1 + (outgoingIds s n).length) + unvisitedPot s (v ++ [n]) := by
  have hnl : n ∈ (s.heap.map Prod.fst).dedup := List.mem_dedup.2 hheap
  have hnodup : (s.heap.map Prod.fst).dedup.Nodup := List.nodup_dedup _
  have hnA : n ∈ (s.heap.map Prod.fst).dedup.filter (fun i => decide (i ∉ v)) := by
    rw [List.mem_filter]
    exact ⟨hnl, by simp [hn]⟩
  have hAnd : ((s.heap.map Prod.fst).dedup.filter (fun i => decide (i ∉ v))).Nodup :=
    hnodup.filter _
  have hperm := (List.perm_cons_erase hnA).map (fun i => 1 + (outgoingIds s i).length)
  have hsum := hperm.sum_eq
  have herase : ((s.heap.map Prod.fst).dedup.filter (fun i => decide (i ∉ v))).erase n
      = (s.heap.map Prod.fst).dedup.filter (fun i => decide (i ∉ v ++ [n])) := by
    rw [hAnd.erase_eq_filter, List.filter_filter]
    apply List.filter_congr
    intro x _
    by_cases hxn : x = n
    · subst hxn
      simp
    · simp [hxn, List.mem_append]
  rw [unvisitedPot, unvisitedPot, hsum, herase, List.map_cons, List.sum_cons]

lemma visitL_total (s : St) :
    ∀ fuel wl v t, wl.length + unvisitedPot s v < fuel →
    (visitL s fuel wl v t).isSome := by
  intro fuel
  induction fuel with
  | zero =>
    intro wl v t h
    exact absurd h (Nat.not_lt_zero _)
  | succ f ih =>
    intro wl v t h
    cases wl with
    | nil =>
      rw [visitL_nil]
      rfl
    | cons n rest =>
      simp only [List.length_cons] at h
      rw [visitL_cons]
      by_cases hn : n ∈ v
      · rw [if_pos hn]
        apply ih
        omega
      · rw [if_neg hn]
        by_cases hheap : n ∈ s.heap.map Prod.fst
        · have hstep := pot_step s v n hheap hn
          have hchild : (visitL s f (outgoingIds s n) (v ++ [n]) t).isSome := by
            apply ih
            omega
          obtain ⟨p, hp⟩ := Option.isSome_iff_exists.1 hchild
          obtain ⟨v1, t1⟩ := p
          rw [hp]
          obtain ⟨ha1, _, _, _, _⟩ := visitL_basic s f _ _ _ _ _ hp
          have hm : unvisitedPot s v1 ≤ unvisitedPot s (v ++ [n]) :=
            pot_mono s (v ++ [n]) v1 ha1
          apply ih
          omega
        · have hout : outgoingIds s n = [] := by
            rw [outgoingIds, nodeOf, heapGet, alookup_eq_none s.heap n hheap]
            rfl
          rw [hout, visitL_nil]
          apply ih
          have hm : unvisitedPot s (v ++ [n]) ≤ unvisitedPot s v :=
            pot_mono s v (v ++ [n]) (fun x hx => List.mem_append_left _ hx)
          omega

/-- The call budget `fuelOf s` is never exhausted: `topological_sort` always
returns a list, as the Python recursion always terminates. -/
lemma topological_sort_total (s : St) : ∃ l, topological_sort s = some l := by
  have h : (visitL s (fuelOf s) (rootIds s) [] []).isSome := by
    apply visitL_total
    have h1 : (rootIds s).length ≤ s.named_nodes.length := by
      rw [rootIds, namedValues]
      calc ((s.named_nodes.map (·.2)).filter _).length
          ≤ (s.named_nodes.map (·.2)).length := List.length_filter_le _ _
        _ = s.named_nodes.length := List.length_map _ _
    rw [fuelOf]
    omega
  obtain ⟨p, hp⟩ := Option.isSome_iff_exists.1 h
  refine ⟨p.2, ?_⟩
  rw [topological_sort, hp]
  rfl

lemma reach_visited (s : St) (v' : List Nat)
    (hclosed : ∀ x, x ∈ v' → ∀ y, y ∈ outgoingIds s x → y ∈ v')
    {a b : Nat} (hab : Relation.ReflTransGen (EdgeRel s) a b) (ha : a ∈ v') :
    b ∈ v' := by
  induction hab with
  | refl => exact ha
  | tail _ he2 ih2 => exact hclosed _ ih2 _ he2

/-- A graph admitting a strictly edge-increasing rank function has no cycle. -/
lemma no_cycle_of_rank (s : St) (f : Nat → Nat)
    (hmono : ∀ a b, EdgeRel s a b → f a < f b) :
    ∀ a, ¬ Relation.TransGen (EdgeRel s) a a := by
  have hlt : ∀ a b, Relation.TransGen (EdgeRel s) a b → f a < f b := by
    intro a b h
    induction h with
    | single h1 => exact hmono _ _ h1
    | tail _ h1 ih => exact lt_trans ih (hmono _ _ h1)
  intro a ha
  exact lt_irrefl (f a) (hlt a a ha)

/-- Ordering invariant of the depth-first search on an acyclic graph: a node
is pushed onto the front of `tsort` only after all its successors are already
in `tsort`, so every finished node precedes all its successors.  The gray
nodes (visited but unfinished) always reach the whole current worklist, which
is what rules out a successor being gray. -/
lemma visitL_fin (s : St) (hacyc : ∀ a, ¬ Relation.TransGen (EdgeRel s) a a) :
    ∀ fuel wl v t v' t', visitL s fuel wl v t = some (v', t') →
    (∀ x, x ∈ t → x ∈ v) →
    (∀ g, g ∈ v → g ∉ t → ∀ c, c ∈ wl → Relation.ReflTransGen (EdgeRel s) g c) →
    (∀ x, x ∈ t → ∀ y, y ∈ outgoingIds s x → List.Sublist [x, y] t) →
    (∀ x, x ∈ t' → ∀ y, y ∈ outgoingIds s x → List.Sublist [x, y] t') := by
  intro fuel
  induction fuel with
  | zero =>
    intro wl v t v' t' h _ _ hfin
    cases wl with
    | nil =>
      obtain ⟨rfl, rfl⟩ := visitL_post_of_nil s 0 v t v' t' h
      exact hfin
    | cons n rest =>
      rw [visitL_zero_cons] at h
      cases h
  | succ f ih =>
    intro wl v t v' t' h htv hgray hfin
    cases wl with
    | nil =>
      obtain ⟨rfl, rfl⟩ := visitL_post_of_nil s (f + 1) v t v' t' h
      exact hfin
    | cons n rest =>
      rw [visitL_cons] at h
      by_cases hn : n ∈ v
      · rw [if_pos hn] at h
        exact ih rest v t v' t' h htv
          (fun g hg hgt c hc => hgray g hg hgt c (List.mem_cons_of_mem n hc)) hfin
      · rw [if_neg hn] at h
        cases hcall : visitL s f (outgoingIds s n) (v ++ [n]) t with
        | none =>
          rw [hcall] at h
          cases h
        | some p =>
          obtain ⟨v1, t1⟩ := p
          rw [hcall] at h
          obtain ⟨ha1, hb1, hc1, hd1, _⟩ := visitL_basic s f _ _ _ _ _ hcall
          have hgray1 : ∀ g, g ∈ v ++ [n] → g ∉ t → ∀ c, c ∈ outgoingIds s n →
              Relation.ReflTransGen (EdgeRel s) g c := by
            intro g hg hgt c hc
            rcases List.mem_append.1 hg with hgv | hgn
            · exact (hgray g hgv hgt n (List.mem_cons_self n rest)).tail hc
            · have hge : g = n := List.mem_singleton.1 hgn
              subst hge
              exact Relation.ReflTransGen.single hc
          have hfin1 : ∀ x, x ∈ t1 → ∀ y, y ∈ outgoingIds s x → List.Sublist [x, y] t1 :=
            ih _ _ _ _ _ hcall (fun x hx => List.mem_append_left _ (htv x hx)) hgray1 hfin
          have hsucc_t1 : ∀ y, y ∈ outgoingIds s n → y ∈ t1 := by
            intro y hy
            have hyv1 : y ∈ v1 := hb1 y hy
            by_cases hyvn : y ∈ v ++ [n]
            · rcases List.mem_append.1 hyvn with hyv | hyn
              · by_cases hyt : y ∈ t
                · exact hc1.subset hyt
                · exfalso
                  apply hacyc n
                  exact Relation.TransGen.trans_left (Relation.TransGen.single hy)
                    (hgray y hyv hyt n (List.mem_cons_self n rest))
              · exfalso
                have hye : y = n := List.mem_singleton.1 hyn
                subst hye
                exact hacyc y (Relation.TransGen.single hy)
            · exact (hd1 y).2 (Or.inr ⟨hyv1, hyvn⟩)
          have hfin2 : ∀ x, x ∈ n :: t1 → ∀ y, y ∈ outgoingIds s x →
              List.Sublist [x, y] (n :: t1) := by
            intro x hx y hy
            rcases List.mem_cons.1 hx with rfl | hxt1
            · exact List.Sublist.cons₂ x (List.singleton_sublist.2 (hsucc_t1 y hy))
            · exact (hfin1 x hxt1 y hy).trans (List.sublist_cons_self n t1)
          have htv2 : ∀ x, x ∈ n :: t1 → x ∈ v1 := by
            intro x hx
            rcases List.mem_cons.1 hx with rfl | hxt1
            · exact ha1 x (List.mem_append_right _ (List.mem_singleton.2 rfl))
            · rcases (hd1 x).1 hxt1 with hxt | ⟨hxv1, _⟩
              · exact ha1 x (List.mem_append_left _ (htv x hxt))
              · exact hxv1
          have hgray2 : ∀ g, g ∈ v1 → g ∉ n :: t1 → ∀ c, c ∈ rest →
              Relation.ReflTransGen (EdgeRel s) g c := by
            intro g hg hgt c hc
            have hgne : g ≠ n := fun he => hgt (he ▸ List.mem_cons_self n t1)
            have hgnt1 : g ∉ t1 := fun hm => hgt (List.mem_cons_of_mem n hm)
            have hgvn : g ∈ v ++ [n] := by
              by_contra hgnvn
              exact hgnt1 ((hd1 g).2 (Or.inr ⟨hg, hgnvn⟩))
            have hgv : g ∈ v := by
              rcases List.mem_append.1 hgvn with hgv | hgn
              · exact hgv
              · exact absurd (List.mem_singleton.1 hgn) hgne
            have hgnt : g ∉ t := fun hm => hgnt1 (hc1.subset hm)
            exact hgray g hgv hgnt c (List.mem_cons_of_mem n hc)
          exact ih _ _ _ _ _ h htv2 hgray2 hfin2

/-- Claim C1: on an acyclic graph whose registered nodes are all reachable
from some incoming-free root, `topological_sort` returns a list in which the
source of every edge appears (strictly) before its target -- stated as: for
every edge `a -> b` with `a` registered, `[a, b]` is a sublist of the output.
Concretely, the graph built from `{A: [B], B: [C], C: []}` sorts to
`[A, B, C]`. -/
theorem topological_sort_respects_edges (s : St)
    (hacyc : ∀ a, ¬ Relation.TransGen (EdgeRel s) a a)
    (hreach : ∀ i, i ∈ namedValues s →
      ∃ r, r ∈ rootIds s ∧ Relation.ReflTransGen (EdgeRel s) r i) :
    (∃ l, topological_sort s = some l
      ∧ ∀ a b, a ∈ namedValues s → EdgeRel s a b → List.Sublist [a, b] l)
    ∧ (topological_sort gABC).map (node_list_to_node_name_list gABC)
        = some ["A", "B", "C"] := by
  refine ⟨?_, rfl⟩
  obtain ⟨l, hl⟩ := topological_sort_total s
  refine ⟨l, hl, ?_⟩
  rw [topological_sort] at hl
  cases hv : visitL s (fuelOf s) (rootIds s) [] [] with
  | none =>
    rw [hv] at hl
    cases hl
  | some p =>
    obtain ⟨v', t'⟩ := p
    rw [hv] at hl
    simp only [Option.map_some', Option.some_inj] at hl
    subst hl
    obtain ⟨_, hb, _, hd, he⟩ := visitL_basic s _ _ _ _ _ _ hv
    have hclosed : ∀ x, x ∈ v' → ∀ y, y ∈ outgoingIds s x → y ∈ v' := by
      intro x hx
      rcases he x hx with hx0 | hs
      · exact absurd hx0 (List.not_mem_nil x)
      · exact hs
    have hfin := visitL_fin s hacyc _ _ _ _ _ _ hv
      (fun x hx => absurd hx (List.not_mem_nil x))
      (fun g hg => absurd hg (List.not_mem_nil g))
      (fun x hx => absurd hx (List.not_mem_nil x))
    intro a b hav hedge
    obtain ⟨r, hr, hpath⟩ := hreach a hav
    have hav' : a ∈ v' := reach_visited s v' hclosed hpath (hb r hr)
    have hat : a ∈ t' := (hd a).2 (Or.inr ⟨hav', List.not_mem_nil a⟩)
    exact hfin a hat b hedge

/-- Witness for C1: the worked example `{A: [B], B: [C], C: []}` (ranked by
node id) is acyclic with every node reachable from the root `A`. -/
theorem topological_sort_respects_edges_witness :
    ((∃ l, topological_sort gABC = some l
      ∧ ∀ a b, a ∈ namedValues gABC → EdgeRel gABC a b → List.Sublist [a, b] l)
    ∧ (topological_sort gABC).map (node_list_to_node_name_list gABC)
        = some ["A", "B", "C"]) := by
  apply topological_sort_respects_edges gABC
  · apply no_cycle_of_rank gABC (fun i => i)
    intro a b hab
    have hne : outgoingIds gABC a ≠ [] := by
      intro he
      rw [EdgeRel, he] at hab
      exact absurd hab (List.not_mem_nil b)
    have hmem : a ∈ gABC.heap.map Prod.fst := outgoingIds_ne_nil_mem gABC a hne
    have hkeys : gABC.heap.map Prod.fst = [0, 1, 2] := rfl
    rw [hkeys] at hmem
    simp only [List.mem_cons, List.not_mem_nil, or_false] at hmem
    rcases hmem with rfl | rfl | rfl
    · have h0 : outgoingIds gABC 0 = [1] := rfl
      rw [EdgeRel, h0] at hab
      simp only [List.mem_singleton] at hab
      omega
    · have h1 : outgoingIds gABC 1 = [2] := rfl
      rw [EdgeRel, h1] at hab
      simp only [List.mem_singleton] at hab
      omega
    · have h2 : outgoingIds gABC 2 = [] := rfl
      rw [EdgeRel, h2] at hab
      exact absurd hab (List.not_mem_nil b)
  · intro i hi
    have hnv : namedValues gABC = [0, 1, 2] := rfl
    rw [hnv] at hi
    simp only [List.mem_cons, List.not_mem_nil, or_false] at hi
    have hroot : (0 : Nat) ∈ rootIds gABC := by decide
    rcases hi with rfl | rfl | rfl
    · exact ⟨0, hroot, Relation.ReflTransGen.refl⟩
    · exact ⟨0, hroot,
        Relation.ReflTransGen.single (by decide : (1 : Nat) ∈ outgoingIds gABC 0)⟩
    · exact ⟨0, hroot,
        Relation.ReflTransGen.tail
          (Relation.ReflTransGen.single (by decide : (1 : Nat) ∈ outgoingIds gABC 0))
          (by decide : (2 : Nat) ∈ outgoingIds gABC 1)⟩

/-- Claim C2: `topological_sort` never raises on cyclic input; when every
registered node has at least one incoming edge (so the truthiness test
`if node.has_incoming(): continue` skips every node), the main loop starts no
traversal and the empty list is returned. -/
theorem topological_sort_all_incoming_empty (s : St)
    (h : ∀ p ∈ s.named_nodes, pyTruthy (nodeOf s p.2).has_incoming = true) :
    topological_sort s = some [] := by
  have hroot : rootIds s = [] := by
    rw [rootIds, List.filter_eq_nil_iff]
    intro i hi
    rw [namedValues, List.mem_map] at hi
    obtain ⟨p, hp, rfl⟩ := hi
    simp [h p hp]
  rw [topological_sort, hroot, visitL_nil]
  rfl

/-- Witness for C2: the two-cycle `{A: [B], B: [A]}` yields the empty sort. -/
theorem topological_sort_all_incoming_empty_witness :
    topological_sort (okSt (digraph_create_from_dict [("A", ["B"]), ("B", ["A"])]))
      = some [] :=
  topological_sort_all_incoming_empty _ (by decide)

/-- Claim C4: `add_node` raises exactly when an already-registered node has an
equal name (the scan compares names, not object identity), and a failing call
leaves the graph untouched (the error state is the input state, so every
`find` result, in particular the one for the colliding name, is unchanged). -/
theorem add_node_duplicate_name (s : St) (i : Nat) (nd : NodeData)
    (h : heapGet s i = some nd) :
    (isErr (add_node s i) = true ↔ ∃ p ∈ s.named_nodes, (nodeOf s p.2).name = nd.name)
    ∧ (∀ msg s', add_node s i = .error (msg, s') → s' = s) := by
  rw [add_node, h]
  dsimp only
  by_cases hdup : s.named_nodes.any (fun p => (nodeOf s p.2).name == nd.name)
  · rw [if_pos hdup]
    refine ⟨⟨fun _ => ?_, fun _ => rfl⟩, fun msg s' he => ?_⟩
    · rw [List.any_eq_true] at hdup
      obtain ⟨p, hp, hpn⟩ := hdup
      exact ⟨p, hp, by simpa using hpn⟩
    · injection he with he'
      exact (congrArg Prod.snd he').symm
  · rw [if_neg hdup]
    refine ⟨⟨fun hc => by simp [isErr] at hc, fun hex => ?_⟩,
      fun msg s' he => by injection he⟩
    exfalso
    apply hdup
    rw [List.any_eq_true]
    obtain ⟨p, hp, hpn⟩ := hex
    exact ⟨p, hp, by simpa using hpn⟩

/-- Witness for C4: re-registering a second node object named "A" (a parallel
instance, not the registered object) fails, with the state unchanged. -/
theorem add_node_duplicate_name_witness :
    (isErr (add_node (newNode (okSt (digraph_create_from_dict [("A", [])])) "A").1
        (newNode (okSt (digraph_create_from_dict [("A", [])])) "A").2) = true
      ↔ ∃ p ∈ (newNode (okSt (digraph_create_from_dict [("A", [])])) "A").1.named_nodes,
          (nodeOf (newNode (okSt (digraph_create_from_dict [("A", [])])) "A").1 p.2).name
            = (⟨"A", [], []⟩ : NodeData).name)
    ∧ (∀ msg s', add_node (newNode (okSt (digraph_create_from_dict [("A", [])])) "A").1
        (newNode (okSt (digraph_create_from_dict [("A", [])])) "A").2 = .error (msg, s')
        → s' = (newNode (okSt (digraph_create_from_dict [("A", [])])) "A").1) :=
  add_node_duplicate_name _ _ ⟨"A", [], []⟩ (by decide)

/-- Claim C5: `create_edge` raises exactly when an endpoint is not the object
registered under its own name (covering both "not registered at all" and
"stale parallel object"), and all four asserts precede the two list
insertions, so a failing call mutates nothing: the error state is the input
state. -/
theorem create_edge_unregistered (s : St) (a b : Nat) (w : Int) (nda ndb : NodeData)
    (ha : heapGet s a = some nda) (hb : heapGet s b = some ndb) :
    (isErr (create_edge s a b w) = true
      ↔ (find s nda.name ≠ some a ∨ find s ndb.name ≠ some b))
    ∧ (∀ msg s', create_edge s a b w = .error (msg, s') → s' = s) := by
  rw [create_edge, ha, hb]
  dsimp only
  by_cases h1 : find s nda.name = some a
  · rw [if_pos h1]
    by_cases h2 : find s ndb.name = some b
    · rw [if_pos h2]
      exact ⟨⟨fun hc => by simp [isErr] at hc, fun hor => by
        rcases hor with h | h <;> exact absurd (by assumption) h⟩,
        fun msg s' he => by injection he⟩
    · rw [if_neg h2]
      exact ⟨⟨fun _ => Or.inr h2, fun _ => rfl⟩,
        fun msg s' he => by
          injection he with he'
          exact (congrArg Prod.snd he').symm⟩
  · rw [if_neg h1]
    exact ⟨⟨fun _ => Or.inl h1, fun _ => rfl⟩,
      fun msg s' he => by
        injection he with he'
        exact (congrArg Prod.snd he').symm⟩

/-- Witness for C5: linking two freshly constructed, never-registered nodes in
an empty digraph raises, and the error state is the input state. -/
theorem create_edge_unregistered_witness :
    (isErr (create_edge (newNode (newNode St.empty "A").1 "B").1 0 1 0) = true
      ↔ (find (newNode (newNode St.empty "A").1 "B").1 "A" ≠ some 0
          ∨ find (newNode (newNode St.empty "A").1 "B").1 "B" ≠ some 1))
    ∧ (∀ msg s', create_edge (newNode (newNode St.empty "A").1 "B").1 0 1 0 = .error (msg, s')
        → s' = (newNode (newNode St.empty "A").1 "B").1) :=
  create_edge_unregistered _ 0 1 0 ⟨"A", [], []⟩ ⟨"B", [], []⟩ (by decide) (by decide)

/-- Counterexample to claim C8: `has_incoming` does not return the boolean
`True` on a node with an incoming edge -- the source is
`return self.__incoming`, so the call returns the incoming list object
itself. -/
theorem has_incoming_counterexample :
    NodeData.has_incoming ⟨"B", [⟨0, 0⟩], []⟩ = PyRetVal.pylist [⟨0, 0⟩]
    ∧ NodeData.has_incoming ⟨"B", [⟨0, 0⟩], []⟩ ≠ PyRetVal.pybool true
    ∧ NodeData.has_incoming ⟨"A", [], []⟩ ≠ PyRetVal.pybool false := by
  refine ⟨rfl, ?_, ?_⟩ <;> decide

/-- Amended C8: `has_incoming` returns the node's incoming list itself, which
under Python truthiness (the only way the caller, `topological_sort`, uses it)
is truthy exactly when the node has at least one incoming edge. -/
theorem has_incoming_truthy (nd : NodeData) :
    nd.has_incoming = PyRetVal.pylist nd.incoming
    ∧ (pyTruthy nd.has_incoming = true ↔ nd.incoming ≠ []) := by
  refine ⟨rfl, ?_⟩
  rw [NodeData.has_incoming, pyTruthy]
  cases nd.incoming <;> simp

/-- Claim C10: `create_edge` deduplicates nothing and allows self-loops:
two identical calls yield parallel edges (the exported mapping lists `B`
twice under `A`), and a self-edge registers the node in its own outgoing and
incoming lists. -/
theorem create_edge_parallel_and_selfloop :
    (digraph_create_from_dict [("A", []), ("B", [])]
      = .ok (okSt (digraph_create_from_dict [("A", []), ("B", [])])))
    ∧ (create_edge (okSt (digraph_create_from_dict [("A", []), ("B", [])])) 0 1 0
      = .ok (okSt (create_edge (okSt (digraph_create_from_dict [("A", []), ("B", [])])) 0 1 0)))
    ∧ (create_edge (okSt (create_edge (okSt (digraph_create_from_dict [("A", []), ("B", [])])) 0 1 0)) 0 1 0
      = .ok (okSt (create_edge (okSt (create_edge (okSt (digraph_create_from_dict [("A", []), ("B", [])])) 0 1 0)) 0 1 0)))
    ∧ as_dict (okSt (create_edge (okSt (create_edge (okSt (digraph_create_from_dict [("A", []), ("B", [])])) 0 1 0)) 0 1 0))
      = [("A", ["B", "B"]), ("B", [])]
    ∧ (create_edge (okSt (digraph_create_from_dict [("A", []), ("B", [])])) 0 0 0
      = .ok (okSt (create_edge (okSt (digraph_create_from_dict [("A", []), ("B", [])])) 0 0 0)))
    ∧ outgoingIds (okSt (create_edge (okSt (digraph_create_from_dict [("A", []), ("B", [])])) 0 0 0)) 0 = [0]
    ∧ incomingIds (okSt (create_edge (okSt (digraph_create_from_dict [("A", []), ("B", [])])) 0 0 0)) 0 = [0] := by
  refine ⟨rfl, rfl, rfl, by decide, rfl, by decide, by decide⟩

lemma nameIds_length (ks : List String) : ∀ n0, (nameIds n0 ks).length = ks.length := by
  induction ks with
  | nil => intro n0; rfl
  | cons k ks ih => intro n0; simp [nameIds, ih]

lemma slookup_nameIds_none (ks : List String) (t : String) (h : t ∉ ks) :
    ∀ n0, slookup (nameIds n0 ks) t = none := by
  induction ks with
  | nil => intro n0; rfl
  | cons k ks ih =>
    intro n0
    simp only [List.mem_cons] at h
    push_neg at h
    rw [nameIds, slookup, if_neg (fun he => h.1 he.symm)]
    exact ih h.2 (n0 + 1)

lemma slookup_nameIds_mem (ks : List String) (t : String) (h : t ∈ ks) :
    ∀ n0, ∃ j, slookup (nameIds n0 ks) t = some (n0 + j) ∧ j < ks.length
      ∧ ks.getD j "" = t := by
  induction ks with
  | nil => exact absurd h (List.not_mem_nil t)
  | cons k ks ih =>
    intro n0
    by_cases hk : k = t
    · refine ⟨0, ?_, by simp, by simp [hk]⟩
      rw [nameIds, slookup, if_pos hk, Nat.add_zero]
    · have ht : t ∈ ks := by
        rcases List.mem_cons.1 h with he | hm
        · exact absurd he.symm hk
        · exact hm
      obtain ⟨j, hj1, hj2, hj3⟩ := ih ht (n0 + 1)
      refine ⟨j + 1, ?_, by simp only [List.length_cons]; omega, by simpa using hj3⟩
      rw [nameIds, slookup, if_neg hk, hj1]
      congr 1
      omega

lemma slookup_nameIds_self (ks : List String) (hnd : ks.Nodup) :
    ∀ n0 i, i < ks.length → slookup (nameIds n0 ks) (ks.getD i "") = some (n0 + i) := by
  induction ks with
  | nil => intro n0 i hi; simp at hi
  | cons k ks ih =>
    intro n0 i hi
    rcases List.nodup_cons.1 hnd with ⟨hk, hnd'⟩
    cases i with
    | zero => rw [List.getD_cons_zero, nameIds, slookup, if_pos rfl, Nat.add_zero]
    | succ j =>
      have hj : j < ks.length := by simp only [List.length_cons] at hi; omega
      have hne : k ≠ ks.getD j "" := by
        intro he
        apply hk
        rw [he, List.getD_eq_getElem _ _ hj]
        exact List.getElem_mem _
      rw [List.getD_cons_succ, nameIds, slookup, if_neg hne, ih hnd' (n0 + 1) j hj]
      congr 1
      omega

lemma idOf_spec (ks : List String) (t : String) (h : t ∈ ks) :
    idOf ks t < ks.length ∧ ks.getD (idOf ks t) "" = t
    ∧ slookup (nameIds 0 ks) t = some (idOf ks t) := by
  obtain ⟨j, h1, h2, h3⟩ := slookup_nameIds_mem ks t h 0
  have hid : idOf ks t = j := by
    rw [idOf, h1]
    simp
  rw [hid]
  refine ⟨h2, h3, by rw [h1]; simp⟩

lemma idOf_self (ks : List String) (hnd : ks.Nodup) (i : Nat) (hi : i < ks.length) :
    idOf ks (ks.getD i "") = i := by
  rw [idOf, slookup_nameIds_self ks hnd 0 i hi]
  simp

lemma allocNodes_lookup (ks : List String) :
    ∀ n0 i, i < ks.length →
      alookup (allocNodes n0 ks) (n0 + i) = some ⟨ks.getD i "", [], []⟩ := by
  induction ks with
  | nil => intro n0 i hi; simp at hi
  | cons k ks ih =>
    intro n0 i hi
    cases i with
    | zero => simp [allocNodes, alookup]
    | succ j =>
      have hj : j < ks.length := by simp only [List.length_cons] at hi; omega
      rw [allocNodes, alookup, if_neg (by omega)]
      rw [show n0 + (j + 1) = (n0 + 1) + j by omega, ih (n0 + 1) j hj]
      rw [List.getD_cons_succ]

/-- Phase 1 from a state whose bindings are disjoint from the mapping's keys:
it always succeeds and allocates one fresh, empty, key-named node per key, in
key order. -/
lemma phase1_spec :
    ∀ (m : List (String × List String)) (s : St),
    (m.map Prod.fst).Nodup →
    (∀ p, p ∈ s.heap → p.1 < s.nextId) →
    (∀ p, p ∈ s.named_nodes → ∃ nd, alookup s.heap p.2 = some nd ∧ nd.name = p.1) →
    (∀ k, k ∈ m.map Prod.fst → ∀ p, p ∈ s.named_nodes → p.1 ≠ k) →
    phase1 s m = .ok ⟨s.heap ++ allocNodes s.nextId (m.map Prod.fst),
                      s.nextId + m.length,
                      s.named_nodes ++ nameIds s.nextId (m.map Prod.fst)⟩ := by
  intro m
  induction m with
  | nil =>
    intro s _ _ _ _
    rw [phase1]
    cases s with
    | mk h n nn => simp [allocNodes, nameIds]
  | cons q rest ih =>
    obtain ⟨k, outs⟩ := q
    intro s hnd hlt hnamed hfresh
    simp only [List.map_cons, List.nodup_cons] at hnd
    rw [phase1]
    have hnotin : s.nextId ∉ s.heap.map Prod.fst := by
      intro hm
      obtain ⟨p, hp, he⟩ := List.mem_map.1 hm
      have := hlt p hp
      omega
    have hget : heapGet (newNode s k).1 (newNode s k).2 = some ⟨k, [], []⟩ := by
      show alookup (s.heap ++ [(s.nextId, ⟨k, [], []⟩)]) s.nextId = _
      rw [alookup_append_right _ (alookup_eq_none s.heap s.nextId hnotin),
        alookup, if_pos rfl]
    have hany : ((newNode s k).1.named_nodes.any
        (fun p => (nodeOf (newNode s k).1 p.2).name == (⟨k, [], []⟩ : NodeData).name))
          = false := by
      rw [List.any_eq_false]
      intro p hp
      have hp' : p ∈ s.named_nodes := hp
      obtain ⟨nd, hnd1, hnd2⟩ := hnamed p hp'
      have hnode : nodeOf (newNode s k).1 p.2 = nd := by
        show ((alookup (s.heap ++ [(s.nextId, ⟨k, [], []⟩)]) p.2).getD _) = nd
        rw [alookup_append_left _ hnd1]
        rfl
      rw [hnode, hnd2]
      have hne := hfresh k (by simp) p hp'
      simpa using hne
    rw [add_node, hget]
    dsimp only
    rw [hany, if_neg (show ¬(false = true) by simp)]
    have ih2 := ih ⟨s.heap ++ [(s.nextId, ⟨k, [], []⟩)], s.nextId + 1,
        s.named_nodes ++ [(k, s.nextId)]⟩ hnd.2
      (by
        intro p hp
        rcases List.mem_append.1 hp with hold | hnew
        · have := hlt p hold
          simp only
          omega
        · simp only [List.mem_singleton] at hnew
          subst hnew
          simp)
      (by
        intro p hp
        rcases List.mem_append.1 hp with hold | hnew
        · obtain ⟨nd, hnd1, hnd2⟩ := hnamed p hold
          exact ⟨nd, alookup_append_left _ hnd1, hnd2⟩
        · simp only [List.mem_singleton] at hnew
          subst hnew
          refine ⟨⟨k, [], []⟩, ?_, rfl⟩
          show alookup (s.heap ++ [(s.nextId, ⟨k, [], []⟩)]) s.nextId = _
          rw [alookup_append_right _ (alookup_eq_none s.heap s.nextId hnotin),
            alookup, if_pos rfl])
      (by
        intro k' hk' p hp
        rcases List.mem_append.1 hp with hold | hnew
        · exact hfresh k' (by simp [hk']) p hold
        · simp only [List.mem_singleton] at hnew
          subst hnew
          show k ≠ k'
          intro he
          exact hnd.1 (he ▸ hk'))
    dsimp only [newNode] at ih2 ⊢
    rw [ih2]
    simp only [Except.ok.injEq, St.mk.injEq]
    refine ⟨?_, by simp only [List.length_cons]; omega, ?_⟩
    · simp [allocNodes, List.append_assoc]
    · simp [nameIds, List.append_assoc]

lemma bisectGo_all_not_lt (a : List Edge) (x : Edge)
    (h : ∀ e ∈ a, ¬ x.weight < e.weight) :
    ∀ f lo hi, hi - lo ≤ f → lo ≤ hi → hi ≤ a.length → bisectGo a x f lo hi = hi := by
  intro f
  induction f with
  | zero =>
    intro lo hi h1 h2 _
    show lo = hi
    omega
  | succ f ih =>
    intro lo hi h1 h2 h3
    rw [bisectGo]
    by_cases hlt : lo < hi
    · rw [if_pos hlt]
      have hmid : (lo + hi) / 2 < a.length := by omega
      have hmem : a.getD ((lo + hi) / 2) ⟨0, 0⟩ ∈ a := by
        rw [List.getD_eq_getElem _ _ hmid]
        exact List.getElem_mem _
      rw [if_neg (h _ hmem)]
      exact ih ((lo + hi) / 2 + 1) hi (by omega) (by omega) h3
    · rw [if_neg hlt]
      omega

/-- Inserting an edge at least as heavy as everything present appends it --
in particular each `create_edge` of the bulk constructor (all weights 0)
appends at the end, preserving the mapping's target order. -/
lemma insort_all_not_lt (a : List Edge) (x : Edge)
    (h : ∀ e ∈ a, ¬ x.weight < e.weight) : insort a x = a ++ [x] := by
  have hb : bisectRight a x = a.length :=
    bisectGo_all_not_lt a x h a.length 0 a.length (by omega) (by omega) (le_refl _)
  rw [insort, hb, List.take_length, List.drop_length]

lemma HeapRep_congr {S : St} {ks : List String} {out1 out2 : Nat → List Edge}
    (h12 : ∀ i, i < ks.length → out1 i = out2 i) (h : HeapRep S ks out1) :
    HeapRep S ks out2 := by
  refine ⟨h.1, fun i hi => ?_⟩
  obtain ⟨inc, hl⟩ := h.2 i hi
  exact ⟨inc, by rw [hl, h12 i hi]⟩

/-- One `create_edge` call of the bulk constructor: both endpoints are the
registered objects, so the call succeeds and appends to the source's outgoing
list (by `insort`) and the target's incoming list. -/
lemma create_edge_rep {S : St} {ks : List String} {out : Nat → List Edge}
    (hrep : HeapRep S ks out) (hnd : ks.Nodup) (a b : Nat)
    (ha : a < ks.length) (hb : b < ks.length) :
    ∃ S', create_edge S a b 0 = .ok S'
      ∧ HeapRep S' ks (fun i => if i = a then insort (out a) ⟨b, 0⟩ else out i) := by
  obtain ⟨hnamed, hnodes⟩ := hrep
  obtain ⟨inca, hla⟩ := hnodes a ha
  obtain ⟨incb, hlb⟩ := hnodes b hb
  have hga : heapGet S a = some ⟨ks.getD a "", inca, out a⟩ := hla
  have hgb : heapGet S b = some ⟨ks.getD b "", incb, out b⟩ := hlb
  have hfa : find S (ks.getD a "") = some a := by
    rw [find, hnamed]
    have := slookup_nameIds_self ks hnd 0 a ha
    simpa using this
  have hfb : find S (ks.getD b "") = some b := by
    rw [find, hnamed]
    have := slookup_nameIds_self ks hnd 0 b hb
    simpa using this
  have hstep : create_edge S a b 0 = .ok (updNode (updNode S a
      (fun nd => nd.add_outgoing b 0)) b (fun nd => nd.add_incoming a 0)) := by
    rw [create_edge, hga, hgb]
    dsimp only
    rw [if_pos hfa, if_pos hfb]
  refine ⟨_, hstep, hnamed, ?_⟩
  intro i hi
  obtain ⟨inci, hli⟩ := hnodes i hi
  show ∃ inc, alookup (heapUpd (heapUpd S.heap a _) b _) i = _
  by_cases hib : i = b
  · subst hib
    rw [heapUpd_lookup_self]
    by_cases hia : i = a
    · subst hia
      rw [heapUpd_lookup_self, hla]
      exact ⟨insort inca ⟨i, 0⟩,
        by simp [NodeData.add_outgoing, NodeData.add_incoming]⟩
    · rw [heapUpd_lookup_ne _ _ _ _ hia, hlb]
      exact ⟨insort incb ⟨a, 0⟩, by simp [NodeData.add_incoming, hia]⟩
  · rw [heapUpd_lookup_ne _ _ _ _ hib]
    by_cases hia : i = a
    · subst hia
      rw [heapUpd_lookup_self, hla]
      exact ⟨inca, by simp [NodeData.add_outgoing]⟩
    · rw [heapUpd_lookup_ne _ _ _ _ hia, hli]
      exact ⟨inci, by simp [hia]⟩

/-- The inner loop of phase 2 on one adjacency list: all targets declared, so
the loop succeeds and appends, in list order, one weight-0 edge per target to
the source's outgoing list. -/
lemma addEdges_rep {ks : List String} (hnd : ks.Nodup) :
    ∀ (outs : List String) (S : St) (out : Nat → List Edge) (j : Nat),
    HeapRep S ks out → j < ks.length →
    (∀ t, t ∈ outs → t ∈ ks) →
    (∀ i, i < ks.length → ∀ e, e ∈ out i → e.weight = 0) →
    ∃ S' out', addEdges S j outs = .ok S' ∧ HeapRep S' ks out'
      ∧ out' j = out j ++ outs.map (fun t => (⟨idOf ks t, 0⟩ : Edge))
      ∧ (∀ i, i ≠ j → out' i = out i)
      ∧ (∀ i, i < ks.length → ∀ e, e ∈ out' i → e.weight = 0) := by
  intro outs
  induction outs with
  | nil =>
    intro S out j hrep _ _ hz
    exact ⟨S, out, rfl, hrep, by simp, fun i _ => rfl, hz⟩
  | cons t ts ih =>
    intro S out j hrep hj houts hz
    have htk : t ∈ ks := houts t (List.mem_cons_self t ts)
    obtain ⟨hid1, _, hid3⟩ := idOf_spec ks t htk
    have hfind : find S t = some (idOf ks t) := by
      rw [find, hrep.1]
      exact hid3
    obtain ⟨S1, hce, hrep1⟩ := create_edge_rep hrep hnd j (idOf ks t) hj hid1
    rw [addEdges, hfind]
    dsimp only
    rw [hce]
    dsimp only
    have hins : insort (out j) ⟨idOf ks t, 0⟩ = out j ++ [⟨idOf ks t, 0⟩] := by
      apply insort_all_not_lt
      intro e he
      have hw := hz j hj e he
      simp [hw]
    have hrep1' : HeapRep S1 ks (fun i => if i = j
        then out j ++ [(⟨idOf ks t, 0⟩ : Edge)] else out i) := by
      apply HeapRep_congr _ hrep1
      intro i _
      by_cases hij : i = j
      · subst hij
        simp [hins]
      · simp [hij]
    have hz1 : ∀ i, i < ks.length → ∀ e,
        e ∈ (if i = j then out j ++ [(⟨idOf ks t, 0⟩ : Edge)] else out i) →
        e.weight = 0 := by
      intro i hi e he
      by_cases hij : i = j
      · rw [if_pos hij] at he
        rcases List.mem_append.1 he with h1 | h2
        · exact hz j hj e h1
        · simp only [List.mem_singleton] at h2
          subst h2
          rfl
      · rw [if_neg hij] at he
        exact hz i hi e he
    obtain ⟨S', out', h1, h2, h3, h4, h5⟩ := ih S1 _ j hrep1' hj
      (fun t' ht' => houts t' (List.mem_cons_of_mem t ht')) hz1
    refine ⟨S', out', h1, h2, ?_, ?_, h5⟩
    · rw [h3]
      simp [List.append_assoc]
    · intro i hij
      rw [h4 i hij, if_neg hij]

/-- Phase 2 over the remaining mapping entries: with distinct keys, all
targets declared and the remaining sources still edge-free, it succeeds and
installs exactly the mapping's adjacency lists (as weight-0 edges, in order)
on each remaining source. -/
lemma phase2_rep {ks : List String} (hnd : ks.Nodup) :
    ∀ (rem : List (String × List String)) (S : St) (out : Nat → List Edge),
    HeapRep S ks out →
    (∀ i, i < ks.length → ∀ e, e ∈ out i → e.weight = 0) →
    (∀ p, p ∈ rem → p.1 ∈ ks) →
    (∀ p, p ∈ rem → ∀ t, t ∈ p.2 → t ∈ ks) →
    (rem.map Prod.fst).Nodup →
    (∀ p, p ∈ rem → out (idOf ks p.1) = []) →
    ∃ S' out', phase2 S rem = .ok S' ∧ HeapRep S' ks out'
      ∧ (∀ p, p ∈ rem → out' (idOf ks p.1)
          = p.2.map (fun t => (⟨idOf ks t, 0⟩ : Edge)))
      ∧ (∀ i, (∀ p, p ∈ rem → i ≠ idOf ks p.1) → out' i = out i) := by
  intro rem
  induction rem with
  | nil =>
    intro S out hrep _ _ _ _ _
    exact ⟨S, out, rfl, hrep, fun p hp => absurd hp (List.not_mem_nil p), fun i _ => rfl⟩
  | cons q rest ih =>
    obtain ⟨k, outs⟩ := q
    intro S out hrep hz hkeys htargets hnodup hempty
    have hkk : k ∈ ks := hkeys (k, outs) (List.mem_cons_self _ _)
    obtain ⟨hjlt, hjname, hjslk⟩ := idOf_spec ks k hkk
    have hfind : find S k = some (idOf ks k) := by
      rw [find, hrep.1]
      exact hjslk
    obtain ⟨S1, out1, ha1, ha2, ha3, ha4, ha5⟩ := addEdges_rep hnd outs S out (idOf ks k)
      hrep hjlt (fun t ht => htargets (k, outs) (List.mem_cons_self _ _) t ht) hz
    rw [phase2, hfind]
    dsimp only
    rw [ha1]
    dsimp only
    have hinj : ∀ p, p ∈ rest → idOf ks p.1 ≠ idOf ks k := by
      intro p hp he
      have hp1 : p.1 ∈ ks := hkeys p (List.mem_cons_of_mem _ hp)
      obtain ⟨_, hpname, _⟩ := idOf_spec ks p.1 hp1
      have hpk : p.1 = k := by rw [← hpname, he, hjname]
      simp only [List.map_cons, List.nodup_cons] at hnodup
      exact hnodup.1 (by rw [← hpk]; exact List.mem_map_of_mem Prod.fst hp)
    obtain ⟨S', out', hb1, hb2, hb3, hb4⟩ := ih S1 out1 ha2 ha5
      (fun p hp => hkeys p (List.mem_cons_of_mem _ hp))
      (fun p hp t ht => htargets p (List.mem_cons_of_mem _ hp) t ht)
      (by simp only [List.map_cons, List.nodup_cons] at hnodup; exact hnodup.2)
      (by
        intro p hp
        rw [ha4 _ (hinj p hp)]
        exact hempty p (List.mem_cons_of_mem _ hp))
    refine ⟨S', out', hb1, hb2, ?_, ?_⟩
    · intro p hp
      rcases List.mem_cons.1 hp with rfl | hpr
      · show out' (idOf ks k) = outs.map (fun t => (⟨idOf ks t, 0⟩ : Edge))
        rw [hb4 _ (fun p' hp' => (hinj p' hp').symm), ha3,
          hempty (k, outs) (List.mem_cons_self _ _)]
        simp
      · exact hb3 p hpr
    · intro i hi
      rw [hb4 i (fun p hp => hi p (List.mem_cons_of_mem _ hp))]
      exact ha4 i (hi (k, outs) (List.mem_cons_self _ _))

/-- Mapping the registered bindings of a built graph back through
name/outgoing extraction reproduces the input mapping entry by entry. -/
lemma map_nameIds_as_dict (S : St) :
    ∀ (mm : List (String × List String)) (n0 : Nat),
    (∀ j, j < mm.length → (nodeOf S (n0 + j)).name = (mm.getD j ("", [])).1
        ∧ outgoingNamedList S (n0 + j) = (mm.getD j ("", [])).2) →
    (nameIds n0 (mm.map Prod.fst)).map
        (fun p => ((nodeOf S p.2).name, outgoingNamedList S p.2)) = mm := by
  intro mm
  induction mm with
  | nil => intro n0 _; rfl
  | cons q rest ih =>
    obtain ⟨q1, q2⟩ := q
    intro n0 hcomp
    have h0 := hcomp 0 (by simp)
    simp only [Nat.add_zero, List.getD_cons_zero] at h0
    simp only [List.map_cons, nameIds, List.map]
    congr 1
    · rw [h0.1, h0.2]
    · apply ih
      intro j hj
      have hjs := hcomp (j + 1) (by simp only [List.length_cons]; omega)
      rw [show n0 + (j + 1) = n0 + 1 + j by omega] at hjs
      simpa [List.getD_cons_succ] using hjs

/-- Phase 1 on a fresh digraph: all keys get registered before any edge work
starts. -/
lemma phase1_empty (m : List (String × List String)) (hk : (m.map Prod.fst).Nodup) :
    phase1 St.empty m = .ok ⟨allocNodes 0 (m.map Prod.fst), m.length,
      nameIds 0 (m.map Prod.fst)⟩ := by
  have hp1 := phase1_spec m St.empty hk
    (fun p hp => absurd hp (List.not_mem_nil p))
    (fun p hp => absurd hp (List.not_mem_nil p))
    (fun k _ p hp => absurd hp (List.not_mem_nil p))
  rw [hp1]
  simp [St.empty]

/-- A mapping with distinct keys and fully declared targets builds
successfully, and exporting the built graph reproduces the mapping. -/
lemma build_spec (m : List (String × List String))
    (hk : (m.map Prod.fst).Nodup)
    (ht : ∀ p, p ∈ m → ∀ t, t ∈ p.2 → t ∈ m.map Prod.fst) :
    ∃ g, digraph_create_from_dict m = .ok g ∧ as_dict g = m := by
  have hrep1 : HeapRep ⟨allocNodes 0 (m.map Prod.fst), m.length,
      nameIds 0 (m.map Prod.fst)⟩ (m.map Prod.fst) (fun _ => []) := by
    refine ⟨rfl, ?_⟩
    intro i hi
    refine ⟨[], ?_⟩
    have := allocNodes_lookup (m.map Prod.fst) 0 i hi
    simpa using this
  obtain ⟨S', out', hb1, hb2, hb3, hb4⟩ := phase2_rep hk m _ (fun _ => []) hrep1
    (fun i _ e he => absurd he (List.not_mem_nil e))
    (fun p hp => List.mem_map_of_mem Prod.fst hp)
    ht hk (fun p _ => rfl)
  refine ⟨S', ?_, ?_⟩
  · rw [digraph_create_from_dict, create_from_dict, phase1_empty m hk]
    exact hb1
  · rw [as_dict, hb2.1]
    apply map_nameIds_as_dict
    intro j hj
    have hjks : j < (m.map Prod.fst).length := by simpa using hj
    obtain ⟨inc, hlook⟩ := hb2.2 j hjks
    have hnode : nodeOf S' (0 + j) = ⟨(m.map Prod.fst).getD j "", inc, out' j⟩ := by
      rw [nodeOf, heapGet, Nat.zero_add, hlook]
      rfl
    have hp0 : m.getD j ("", []) ∈ m := by
      rw [List.getD_eq_getElem _ _ hj]
      exact List.getElem_mem _
    have hfst : (m.map Prod.fst).getD j "" = (m.getD j ("", [])).1 :=
      List.getD_map m ("", ([] : List String)) Prod.fst
    constructor
    · rw [hnode]
      exact hfst
    · rw [outgoingNamedList, hnode]
      dsimp only
      have hidj : idOf (m.map Prod.fst) (m.getD j ("", [])).1 = j := by
        rw [← hfst]
        exact idOf_self _ hk j hjks
      have hout : out' j = (m.getD j ("", [])).2.map
          (fun t => (⟨idOf (m.map Prod.fst) t, 0⟩ : Edge)) := by
        have hraw := hb3 _ hp0
        rw [hidj] at hraw
        exact hraw
      rw [hout, List.map_map]
      have hnames : ∀ t, t ∈ (m.getD j ("", [])).2 →
          (nodeOf S' (idOf (m.map Prod.fst) t)).name = t := by
        intro t htm
        have htk : t ∈ m.map Prod.fst := ht _ hp0 t htm
        obtain ⟨hl1, hl2, _⟩ := idOf_spec _ t htk
        obtain ⟨inc2, hlook2⟩ := hb2.2 (idOf (m.map Prod.fst) t) hl1
        rw [nodeOf, heapGet, hlook2]
        exact hl2
      calc ((m.getD j ("", [])).2).map
              ((fun e => (nodeOf S' e.node).name) ∘
                (fun t => (⟨idOf (m.map Prod.fst) t, 0⟩ : Edge)))
          = ((m.getD j ("", [])).2).map (fun t => t) := by
            apply List.map_congr_left
            intro t htm
            exact hnames t htm
        _ = (m.getD j ("", [])).2 := List.map_id _

/-- Claim C3: building from a mapping with distinct keys and fully declared
targets, exporting with `as_dict`, re-importing and re-exporting preserves
the node-name keys and each node's ordered outgoing-name list. -/
theorem as_dict_roundtrip (m : List (String × List String))
    (hk : (m.map Prod.fst).Nodup)
    (ht : ∀ p, p ∈ m → ∀ t, t ∈ p.2 → t ∈ m.map Prod.fst) :
    ∃ g, digraph_create_from_dict m = .ok g
      ∧ ∃ g2, digraph_create_from_dict (as_dict g) = .ok g2
        ∧ as_dict g2 = as_dict g := by
  obtain ⟨g, hg, had⟩ := build_spec m hk ht
  exact ⟨g, hg, g, by rw [had]; exact hg, rfl⟩

/-- Witness for C3: the spec's round-trip example `{A: [B, C], B: [], C: []}`. -/
theorem as_dict_roundtrip_witness :
    ∃ g, digraph_create_from_dict [("A", ["B", "C"]), ("B", []), ("C", [])] = .ok g
      ∧ ∃ g2, digraph_create_from_dict (as_dict g) = .ok g2
        ∧ as_dict g2 = as_dict g :=
  as_dict_roundtrip [("A", ["B", "C"]), ("B", []), ("C", [])] (by decide) (by decide)

lemma create_edge_error_state (s : St) (a b : Nat) (w : Int) (e : String × St)
    (h : create_edge s a b w = .error e) : e.2 = s := by
  rw [create_edge] at h
  cases h1 : heapGet s a with
  | none =>
    rw [h1] at h
    injection h with h'
    exact congrArg Prod.snd h'.symm
  | some nda =>
    cases h2 : heapGet s b with
    | none =>
      rw [h1, h2] at h
      injection h with h'
      exact congrArg Prod.snd h'.symm
    | some ndb =>
      rw [h1, h2] at h
      dsimp only at h
      by_cases hf1 : find s nda.name = some a
      · rw [if_pos hf1] at h
        by_cases hf2 : find s ndb.name = some b
        · rw [if_pos hf2] at h
          cases h
        · rw [if_neg hf2] at h
          injection h with h'
          exact congrArg Prod.snd h'.symm
      · rw [if_neg hf1] at h
        injection h with h'
        exact congrArg Prod.snd h'.symm

lemma create_edge_result_named (s : St) (a b : Nat) (w : Int) :
    (okSt (create_edge s a b w)).named_nodes = s.named_nodes := by
  cases h : create_edge s a b w with
  | error e =>
    rw [okSt]
    obtain ⟨msg, serr⟩ := e
    have hs : serr = s := create_edge_error_state s a b w (msg, serr) h
    rw [hs]
  | ok s2 =>
    rw [okSt]
    rw [create_edge] at h
    cases h1 : heapGet s a with
    | none =>
      rw [h1] at h
      cases h
    | some nda =>
      cases h2 : heapGet s b with
      | none =>
        rw [h1, h2] at h
        cases h
      | some ndb =>
        rw [h1, h2] at h
        dsimp only at h
        by_cases hf1 : find s nda.name = some a
        · rw [if_pos hf1] at h
          by_cases hf2 : find s ndb.name = some b
          · rw [if_pos hf2] at h
            injection h with h'
            rw [← h']
            rfl
          · rw [if_neg hf2] at h
            cases h
        · rw [if_neg hf1] at h
          cases h

lemma addEdges_result_named : ∀ (outs : List String) (s : St) (j : Nat),
    (okSt (addEdges s j outs)).named_nodes = s.named_nodes := by
  intro outs
  induction outs with
  | nil => intro s j; rfl
  | cons t ts ih =>
    intro s j
    rw [addEdges]
    cases hf : find s t with
    | none => rfl
    | some toId =>
      dsimp only
      cases hce : create_edge s j toId 0 with
      | error e =>
        obtain ⟨msg, serr⟩ := e
        show serr.named_nodes = s.named_nodes
        have hs : serr = s := create_edge_error_state s j toId 0 (msg, serr) hce
        rw [hs]
      | ok s2 =>
        dsimp only
        rw [ih s2 j]
        have := create_edge_result_named s j toId 0
        rw [hce] at this
        exact this

lemma phase2_result_named : ∀ (rem : List (String × List String)) (s : St),
    (okSt (phase2 s rem)).named_nodes = s.named_nodes := by
  intro rem
  induction rem with
  | nil => intro s; rfl
  | cons q rest ih =>
    obtain ⟨k, outs⟩ := q
    intro s
    rw [phase2]
    cases hf : find s k with
    | none => rfl
    | some j =>
      dsimp only
      cases hae : addEdges s j outs with
      | error e =>
        have := addEdges_result_named outs s j
        rw [hae] at this
        exact this
      | ok s2 =>
        dsimp only
        rw [ih s2]
        have := addEdges_result_named outs s j
        rw [hae] at this
        exact this

lemma addEdges_ok_finds : ∀ (outs : List String) (s : St) (j : Nat) (s' : St),
    addEdges s j outs = .ok s' → ∀ t, t ∈ outs → find s t ≠ none := by
  intro outs
  induction outs with
  | nil =>
    intro s j s' _ t ht
    exact absurd ht (List.not_mem_nil t)
  | cons u ts ih =>
    intro s j s' h t ht
    rw [addEdges] at h
    cases hf : find s u with
    | none =>
      rw [hf] at h
      cases h
    | some toId =>
      rw [hf] at h
      dsimp only at h
      cases hce : create_edge s j toId 0 with
      | error e =>
        rw [hce] at h
        cases h
      | ok s2 =>
        rw [hce] at h
        dsimp only at h
        rcases List.mem_cons.1 ht with rfl | hts
        · rw [hf]
          exact fun hc => by cases hc
        · have hnamed : s2.named_nodes = s.named_nodes := by
            have := create_edge_result_named s j toId 0
            rw [hce] at this
            exact this
          have hfe : find s2 t = find s t := by
            rw [find, find, hnamed]
          rw [← hfe]
          exact ih s2 j s' h t hts

lemma phase2_ok_finds : ∀ (rem : List (String × List String)) (s s' : St),
    phase2 s rem = .ok s' → ∀ p, p ∈ rem → ∀ t, t ∈ p.2 → find s t ≠ none := by
  intro rem
  induction rem with
  | nil =>
    intro s s' _ p hp
    exact absurd hp (List.not_mem_nil p)
  | cons q rest ih =>
    obtain ⟨k, outs⟩ := q
    intro s s' h p hp t ht
    rw [phase2] at h
    cases hf : find s k with
    | none =>
      rw [hf] at h
      cases h
    | some j =>
      rw [hf] at h
      dsimp only at h
      cases hae : addEdges s j outs with
      | error e =>
        rw [hae] at h
        cases h
      | ok s2 =>
        rw [hae] at h
        dsimp only at h
        rcases List.mem_cons.1 hp with rfl | hpr
        · exact addEdges_ok_finds outs s j s2 hae t ht
        · have hnamed : s2.named_nodes = s.named_nodes := by
            have := addEdges_result_named outs s j
            rw [hae] at this
            exact this
          have hfe : find s2 t = find s t := by
            rw [find, find, hnamed]
          rw [← hfe]
          exact ih s2 s' h p hpr t ht

/-- Claim C6: `create_from_dict` registers a node for every key (phase 1)
before creating any edge, and raises when some adjacency-list target was
never declared as a key; the error state still has every key registered.
Concretely, `{A: [B]}` with `B` undeclared raises the "referenced but not
specified" error with only the node `A` (no edges) in the graph. -/
theorem create_from_mapping_unknown_target (m : List (String × List String))
    (hk : (m.map Prod.fst).Nodup)
    (hbad : ∃ p, p ∈ m ∧ ∃ t, t ∈ p.2 ∧ t ∉ m.map Prod.fst) :
    (∃ msg s', digraph_create_from_dict m = .error (msg, s')
      ∧ ∀ k, k ∈ m.map Prod.fst → ∃ i, find s' k = some i)
    ∧ digraph_create_from_dict [("A", ["B"])]
        = .error ("Node 'B' is referenced but not specified",
            ⟨[(0, ⟨"A", [], []⟩)], 1, [("A", 0)]⟩) := by
  refine ⟨?_, rfl⟩
  obtain ⟨p0, hp0, t0, ht0, ht0n⟩ := hbad
  have hfS1 : find (⟨allocNodes 0 (m.map Prod.fst), m.length,
      nameIds 0 (m.map Prod.fst)⟩ : St) t0 = none := by
    show slookup (nameIds 0 (m.map Prod.fst)) t0 = none
    exact slookup_nameIds_none _ t0 ht0n 0
  rw [digraph_create_from_dict, create_from_dict, phase1_empty m hk]
  dsimp only
  cases hres : phase2 (⟨allocNodes 0 (m.map Prod.fst), m.length,
      nameIds 0 (m.map Prod.fst)⟩ : St) m with
  | ok s2 =>
    exact absurd hfS1 (phase2_ok_finds m _ s2 hres p0 hp0 t0 ht0)
  | error e =>
    obtain ⟨msg, serr⟩ := e
    refine ⟨msg, serr, rfl, ?_⟩
    intro k hkm
    have hnamed : serr.named_nodes = nameIds 0 (m.map Prod.fst) := by
      have := phase2_result_named m (⟨allocNodes 0 (m.map Prod.fst), m.length,
        nameIds 0 (m.map Prod.fst)⟩ : St)
      rw [hres] at this
      exact this
    obtain ⟨j, hj1, _, _⟩ := slookup_nameIds_mem (m.map Prod.fst) k hkm 0
    refine ⟨0 + j, ?_⟩
    rw [find, hnamed]
    exact hj1

/-- Witness for C6: the mapping `{A: [B]}` with `B` never declared. -/
theorem create_from_mapping_unknown_target_witness :
    ((∃ msg s', digraph_create_from_dict [("A", ["B"])] = .error (msg, s')
      ∧ ∀ k, k ∈ ([("A", ["B"])].map Prod.fst) → ∃ i, find s' k = some i)
    ∧ digraph_create_from_dict [("A", ["B"])]
        = .error ("Node 'B' is referenced but not specified",
            ⟨[(0, ⟨"A", [], []⟩)], 1, [("A", 0)]⟩)) :=
  create_from_mapping_unknown_target [("A", ["B"])] (by decide)
    ⟨("A", ["B"]), by decide, "B", by decide, by decide⟩

end Digraph
